import Mathlib

/-!
Verification of the `strategies` library (Rust): the backtracking engine
(`src/bt/mod.rs`), its problem-type tag (`src/lib.rs`), and the divide &
conquer solvers (`src/dac/mod.rs`).

Modelling conventions:
* `f64` is modelled as the rationals extended with `⊥ = -∞` and `⊤ = +∞`
  (`WithBot (WithTop ℚ)`); NaN is not modelled.  Every finite `f64` is a
  rational, and `f64::MIN`/`f64::MAX` are the extreme finite doubles
  `∓(2^1024 - 2^971)`, spelled out as integer literals so the kernel can
  compute with them (`f64MAXnat_eq` certifies the literal).
* The Rust trait `bt::State` becomes a structure of functions `StateImpl`;
  the trait's mutating `forward`/`backward` become pure state transformers.
* `HashSet<S>` becomes `Finset σ` (a deduplicated set keyed on structural
  equality), `HashMap<P, E>` becomes an association list with first-match
  lookup, and insertion always prepends (the engine never inserts a key
  that is already present in a way whose precedence matters).
* `Algorithm::solve` recurses without a structural measure, so it is
  embedded with explicit fuel (`solveFuel`); fuel `0` returns the engine
  unchanged, and one unit of fuel is consumed per recursion level, so fuel
  exhaustion models non-termination and sufficient fuel models the real
  run.  The per-frame `for` loop is the list recursion `solveLoopWith`,
  which receives the recursive call as a function argument so that the
  whole definition is structural (and hence computable by the kernel).
* `solveFuelE` is the same engine instrumented with an event trace
  (`forward` calls and terminal evaluations) used for the temporal claim
  about early termination.
-/

/-- The integer value of `f64::MAX`, which is exactly `2 ^ 1024 - 2 ^ 971`
(certified below by `f64MAXnat_eq`).  Written as a literal so that kernel
reduction (`decide`) can evaluate comparisons against it. -/
def f64MAXnat : ℕ := 179769313486231570814527423731704356798070567525844996598917476803157260780028538760589558632766878171540458953514382464234321326889464182768467546703537516986049910576551282076245490090389328944075868508455133942304583236903222948165808559332123348274797826204144723168738177180919299881250404026184124858368

/-- The `f64` value domain: rationals extended with `⊥ = -∞` and `⊤ = +∞`.
NaN is not modelled (no claim involves it). -/
abbrev F64 : Type := WithBot (WithTop ℚ)

/-- A finite double, as an extended rational. -/
def F64.fin (q : ℚ) : F64 := ((q : WithTop ℚ) : WithBot (WithTop ℚ))

/-- `f64::MAX`, the largest finite double. -/
def f64MAX : F64 := F64.fin (f64MAXnat : ℚ)

/-- `f64::MIN`, the smallest finite double, `-f64::MAX`. -/
def f64MIN : F64 := F64.fin (-(f64MAXnat : ℚ))

/-- `Type` from `src/lib.rs`: maximization, minimization, or all solutions.
(Named `PType` because `Type` is reserved in Lean.) -/
inductive PType where
  | All
  | Max
  | Min
deriving DecidableEq

/-- The `bt::State` trait (`src/bt/mod.rs`): the caller-supplied problem
state.  `σ` is the state type (`Self`), `α` the alternative type (`A`).
The Rust methods mutate `self` in place; here `forward`/`backward` are pure
transformers.  The `solution` extraction method is omitted: the engine
never calls it. -/
structure StateImpl (σ α : Type) where
  problem_type : σ → PType
  size : σ → Nat
  is_final : σ → Bool
  alternatives : σ → List α
  forward : σ → α → σ
  backward : σ → α → σ
  value : σ → F64
  estimated_value : σ → α → F64

/-- The default implementation of `State::estimated_value`
(`src/bt/mod.rs` lines 93-99): `f64::MAX` for `Max`, `f64::MIN` for `Min`,
`0.0` otherwise. -/
def defaultEstimatedValue (St : StateImpl σ α) (s : σ) (_a : α) : F64 :=
  match St.problem_type s with
  | .Max => f64MAX
  | .Min => f64MIN
  | .All => F64.fin 0

/-- The `bt::Algorithm` struct: solution cap, deduplicated solution set,
running best value, early-termination flag, and the single live state. -/
structure Algorithm (σ : Type) where
  solution_count : Nat
  solutions : Finset σ
  best_value : F64
  success : Bool
  state : σ

/-- `Algorithm::new` (`src/bt/mod.rs` lines 143-156): cap 100, empty
solution set, `best_value` seeded per problem type (`f64::MIN` for `Max`,
`f64::MAX` for `Min`, `0.0` otherwise), `success = false`. -/
def Algorithm.new (St : StateImpl σ α) (state : σ) : Algorithm σ :=
  { solution_count := 100
    solutions := ∅
    best_value :=
      match St.problem_type state with
      | .Max => f64MIN
      | .Min => f64MAX
      | .All => F64.fin 0
    success := false
    state := state }

/-- The builder method `Algorithm::solution_count` (renamed: in Lean the
field accessor already has that name). -/
def Algorithm.set_solution_count (A : Algorithm σ) (count : Nat) : Algorithm σ :=
  { A with solution_count := count }

/-- `Algorithm::all_solutions`: a copy of the accumulated solution set. -/
def Algorithm.all_solutions (A : Algorithm σ) : Finset σ :=
  A.solutions

/-- `Algorithm::update_solutions` (`src/bt/mod.rs` lines 179-190), with the
acceptance condition transcribed literally from the Rust source.
`Finset.insert` is the deduplicating insert of `HashSet::insert`. -/
def update_solutions [DecidableEq σ] (St : StateImpl σ α) (A : Algorithm σ) : Algorithm σ :=
  let value := St.value A.state
  let problem_type := St.problem_type A.state
  if (problem_type ≠ .Min ∧ problem_type ≠ .Max) ∨
     (problem_type = .Min ∧ value < A.best_value) ∨
     (problem_type = .Max ∧ value > A.best_value) then
    { A with solutions := insert A.state A.solutions, best_value := value }
  else
    A

/-- `Algorithm::is_to_prune` (`src/bt/mod.rs` lines 195-201). -/
def is_to_prune (St : StateImpl σ α) (A : Algorithm σ) (a : α) : Bool :=
  match St.problem_type A.state with
  | .Max => decide (St.estimated_value A.state a ≤ A.best_value)
  | .Min => decide (St.estimated_value A.state a ≥ A.best_value)
  | .All => false

/-- The `for alternative in alternatives` loop body of `Algorithm::solve`
(`src/bt/mod.rs` lines 219-227): forward, recurse (`rec`), backward, and
break when `success` is set.  The recursive call is passed in as `rec` so
that `solveFuel` below is structurally recursive on its fuel. -/
def solveLoopWith (St : StateImpl σ α) (rec : Algorithm σ → Algorithm σ) :
    List α → Algorithm σ → Algorithm σ
  | [], A => A
  | a :: rest, A =>
    let A1 := { A with state := St.forward A.state a }
    let A2 := rec A1
    let A3 := { A2 with state := St.backward A2.state a }
    if A3.success then A3 else solveLoopWith St rec rest A3

/-- `Algorithm::solve` (`src/bt/mod.rs` lines 207-229) with explicit fuel:
one unit of fuel per recursion level, fuel `0` returning the engine
unchanged (models non-termination when fuel runs out).  Terminal states
are recorded by `update_solutions` and `success` is set to
`solutions.len() >= solution_count`; otherwise the surviving alternatives
(computed once, with the entry `best_value`) are explored in order. -/
def solveFuel [DecidableEq σ] (St : StateImpl σ α) : Nat → Algorithm σ → Algorithm σ
  | 0 => fun A => A
  | n + 1 => fun A =>
    if St.is_final A.state then
      let A' := update_solutions St A
      { A' with success := decide (A'.solution_count ≤ A'.solutions.card) }
    else
      solveLoopWith St (solveFuel St n)
        ((St.alternatives A.state).filter (fun a => ! is_to_prune St A a)) A

/-- Observable events of a `solve` run: a `forward` call, or the evaluation
of a terminal state (recording the value of `success` immediately after
that evaluation).  `backward` calls are deliberately not events: they do
still happen while the recursion unwinds after success. -/
inductive Ev where
  | forwardStep
  | terminalEval (success : Bool)
deriving DecidableEq

/-- The loop of `Algorithm::solve`, instrumented with the event trace. -/
def solveLoopWithE (St : StateImpl σ α) (rec : Algorithm σ → Algorithm σ × List Ev) :
    List α → Algorithm σ → Algorithm σ × List Ev
  | [], A => (A, [])
  | a :: rest, A =>
    let A1 := { A with state := St.forward A.state a }
    let r := rec A1
    let A3 := { r.1 with state := St.backward r.1.state a }
    if A3.success then (A3, Ev.forwardStep :: r.2)
    else
      let r2 := solveLoopWithE St rec rest A3
      (r2.1, Ev.forwardStep :: (r.2 ++ r2.2))

/-- `Algorithm::solve` instrumented with the event trace, in chronological
order.  Identical control flow to `solveFuel`. -/
def solveFuelE [DecidableEq σ] (St : StateImpl σ α) : Nat → Algorithm σ → Algorithm σ × List Ev
  | 0 => fun A => (A, [])
  | n + 1 => fun A =>
    if St.is_final A.state then
      let A' := update_solutions St A
      let A'' := { A' with success := decide (A'.solution_count ≤ A'.solutions.card) }
      (A'', [Ev.terminalEval A''.success])
    else
      solveLoopWithE St (solveFuelE St n)
        ((St.alternatives A.state).filter (fun a => ! is_to_prune St A a)) A

/-- The states reachable from `s₀` by `forward` steps along listed
alternatives: the states the live engine can actually be in at the top of
a `solve` frame. -/
inductive Reach (St : StateImpl σ α) : σ → σ → Prop
  | refl (s : σ) : Reach St s s
  | step {s t : σ} (a : α) : Reach St s t → a ∈ St.alternatives t →
      Reach St s (St.forward t a)

/-- The `dac::DacProblem` trait (`src/dac/mod.rs`): `P` is the problem type
(`Self`), `S` the final solution type, `E` the partial solution type. -/
structure DacProblem (P S E : Type) where
  size : P → Nat
  is_base_case : P → Bool
  base_case_solution : P → E
  subproblem_count : P → Nat
  get_subproblem : P → Nat → P
  combine : P → List E → E
  get_solution : P → E → Option S

/-- The list of subproblems `(0..subproblem_count).map(get_subproblem)`. -/
def subproblemList (Pr : DacProblem P S E) (p : P) : List P :=
  (List.range (Pr.subproblem_count p)).map (Pr.get_subproblem p)

/-- Solve every subproblem in order with `step`, collecting the partial
solutions (the `map(solve).collect` of `DacAlgorithm::solve`); `none`
propagates fuel exhaustion. -/
def dacSolveAllWith (step : P → Option E) : List P → Option (List E)
  | [] => some []
  | p :: ps =>
    match step p with
    | none => none
    | some e =>
      match dacSolveAllWith step ps with
      | none => none
      | some es => some (e :: es)

/-- `DacAlgorithm::solve` (`src/dac/mod.rs` lines 176-188) with explicit
fuel (`none` = fuel exhausted, modelling non-termination). -/
def dacSolve (Pr : DacProblem P S E) : Nat → P → Option E
  | 0 => fun _ => none
  | f + 1 => fun p =>
    if Pr.is_base_case p then some (Pr.base_case_solution p)
    else (dacSolveAllWith (dacSolve Pr f) (subproblemList Pr p)).map (Pr.combine p)

/-- `DacAlgorithm::new(p).get_solution()` (`src/dac/mod.rs` lines 166-174
and 191-193): solve, then convert the partial solution. -/
def DacAlgorithm.get_solution (Pr : DacProblem P S E) (fuel : Nat) (p : P) : Option S :=
  match dacSolve Pr fuel p with
  | none => none
  | some e => Pr.get_solution p e

/-- `HashMap::get` on the memo table, modelled as first-match lookup in an
association list. -/
def lookupMem [DecidableEq P] (m : List (P × E)) (p : P) : Option E :=
  match m.find? (fun q => decide (q.1 = p)) with
  | none => none
  | some q => some q.2

/-- Solve every subproblem in order, threading the memo table through. -/
def dacMemSolveAllWith (step : P → List (P × E) → Option (E × List (P × E))) :
    List P → List (P × E) → Option (List E × List (P × E))
  | [], m => some ([], m)
  | p :: ps, m =>
    match step p m with
    | none => none
    | some (e, m') =>
      match dacMemSolveAllWith step ps m' with
      | none => none
      | some (es, m'') => some (e :: es, m'')

/-- `DacMemAlgorithm::solve` (`src/dac/mod.rs` lines 255-275) with explicit
fuel.  Base cases return directly WITHOUT touching the memo table (exactly
as the Rust does); otherwise the memo is consulted, and on a miss the
combined solution is inserted and returned (`get` right after `insert`
yields the inserted value). -/
def dacMemSolve [DecidableEq P] (Pr : DacProblem P S E) :
    Nat → P → List (P × E) → Option (E × List (P × E))
  | 0 => fun _ _ => none
  | f + 1 => fun p m =>
    if Pr.is_base_case p then some (Pr.base_case_solution p, m)
    else
      match lookupMem m p with
      | some e => some (e, m)
      | none =>
        match dacMemSolveAllWith (dacMemSolve Pr f) (subproblemList Pr p) m with
        | none => none
        | some (es, m') =>
          let solution := Pr.combine p es
          some (solution, (p, solution) :: m')

/-- `DacMemAlgorithm::new(p).get_solution()` (`src/dac/mod.rs` lines
244-253 and 277-281): run the memoized solve from an empty table, then
look the ORIGINAL problem up in the final table and convert.  (Note: the
run's return value is discarded; only the table is consulted.) -/
def DacMemAlgorithm.get_solution [DecidableEq P] (Pr : DacProblem P S E)
    (fuel : Nat) (p : P) : Option S :=
  match dacMemSolve Pr fuel p [] with
  | none => none
  | some (_, m) =>
    match lookupMem m p with
    | none => none
    | some e => Pr.get_solution p e

/-! ### Concrete problem instances used by witnesses and counterexamples -/

/-- A single immediately-terminal `Max` state with value `3`. -/
def StTerm : StateImpl ℤ ℤ :=
  { problem_type := fun _ => .Max
    size := fun _ => 0
    is_final := fun _ => true
    alternatives := fun _ => []
    forward := fun s _ => s
    backward := fun s _ => s
    value := fun _ => F64.fin 3
    estimated_value := fun _ _ => f64MAX }

/-- The engine freshly constructed on `StTerm`. -/
def AT : Algorithm ℤ := Algorithm.new StTerm 0

/-- A well-behaved two-step chain on `Fin 4`: `0 → 1 → 2 (final)`, with
`forward`/`backward` the cyclic successor/predecessor (exact rollback holds
for every state), and `size` decreasing `2, 1, 0` along the chain. -/
def StChain : StateImpl (Fin 4) (Fin 1) :=
  { problem_type := fun _ => .All
    size := fun s => if s.val ≤ 1 then 2 - s.val else 0
    is_final := fun s => decide (2 ≤ s.val)
    alternatives := fun s => if s.val < 2 then [0] else []
    forward := fun s _ => s + 1
    backward := fun s _ => s - 1
    value := fun _ => F64.fin 1
    estimated_value := fun _ _ => F64.fin 0 }

/-- The engine freshly constructed on `StChain`. -/
def AW : Algorithm (Fin 4) := Algorithm.new StChain 0

/-- The streaming-acceptance instance: a `Max` root `0` with five terminal
leaves `1..5` of values `5, 3, 7, 7, 2` visited in that order.  The
estimator is the default one (`f64::MAX` under `Max`), so nothing is
pruned. -/
def St8 : StateImpl ℤ ℤ :=
  { problem_type := fun _ => .Max
    size := fun s => if s = 0 then 1 else 0
    is_final := fun s => decide (s ≠ 0)
    alternatives := fun s => if s = 0 then [1, 2, 3, 4, 5] else []
    forward := fun _ a => a
    backward := fun _ _ => 0
    value := fun s =>
      if s = 1 then F64.fin 5
      else if s = 2 then F64.fin 3
      else if s = 3 then F64.fin 7
      else if s = 4 then F64.fin 7
      else if s = 5 then F64.fin 2
      else F64.fin 0
    estimated_value := fun _ _ => f64MAX }

/-- A `Max` root `0` with terminal leaves `1` (value `f64::MAX`) and `2`
(value `0`), default estimator: after visiting leaf `1`, `best_value`
legitimately reaches `f64::MAX`. -/
def StC6 : StateImpl ℤ ℤ :=
  { problem_type := fun _ => .Max
    size := fun s => if s = 0 then 1 else 0
    is_final := fun s => decide (s ≠ 0)
    alternatives := fun s => if s = 0 then [1, 2] else []
    forward := fun _ a => a
    backward := fun _ _ => 0
    value := fun s => if s = 1 then f64MAX else F64.fin 0
    estimated_value := fun _ _ => f64MAX }

/-- A state implementation whose `size` strictly decreases on `forward` and
is exactly restored by `backward` on every reachable state (reachable =
`{10, 0}`), but whose `backward` does NOT restore the state itself: from
`0` it "rolls back" to the corrupted state `20`, from which the search
walks an infinite non-final chain `21, 22, …`.  Used to show that the
size conditions alone do not ensure termination. -/
def St05 : StateImpl ℤ ℤ :=
  { problem_type := fun _ => .All
    size := fun s => if s = 0 then 0 else 1
    is_final := fun s => decide (s = 0)
    alternatives := fun s => if s = 10 then [0, 1] else if s = 0 then [] else [5]
    forward := fun s _ => if s = 10 then 0 else s + 1
    backward := fun s _ => if s = 0 then 20 else s + 1000
    value := fun _ => F64.fin 0
    estimated_value := fun _ _ => F64.fin 0 }

/-- The engine freshly constructed on `St05` (initial state `10`). -/
def A05 : Algorithm ℤ := Algorithm.new St05 10

/-- An `All` root `0` with two terminal leaves `1, 2`, used with
`solution_count = 1` by the early-stop witness. -/
def StW9 : StateImpl ℤ ℤ :=
  { problem_type := fun _ => .All
    size := fun s => if s = 0 then 1 else 0
    is_final := fun s => decide (s ≠ 0)
    alternatives := fun s => if s = 0 then [1, 2] else []
    forward := fun _ a => a
    backward := fun _ _ => 0
    value := fun _ => F64.fin 1
    estimated_value := fun _ _ => F64.fin 0 }

/-- The engine on `StW9` with the cap reconfigured to `1`. -/
def A9 : Algorithm ℤ := (Algorithm.new StW9 0).set_solution_count 1

/-- A divide & conquer problem that is itself a base case with partial
solution `0`, convertible to a final solution. -/
def PrB : DacProblem Unit ℤ ℤ :=
  { size := fun _ => 0
    is_base_case := fun _ => true
    base_case_solution := fun _ => 0
    subproblem_count := fun _ => 0
    get_subproblem := fun p _ => p
    combine := fun _ _ => 0
    get_solution := fun _ e => some e }

/-- Soundness of a memo table: every entry maps a problem to the value the
unmemoized solver computes for it (with sufficient fuel). -/
def GoodMem [DecidableEq P] (Pr : DacProblem P S E) (m : List (P × E)) : Prop :=
  ∀ q e, lookupMem m q = some e → dacSolve Pr (Pr.size q + 1) q = some e

/-! ### Basic lemmas about the embedded operations -/

/-- The `f64::MAX` literal is exactly `2 ^ 1024 - 2 ^ 971`. -/
theorem f64MAXnat_eq : f64MAXnat = 2 ^ 1024 - 2 ^ 971 := by
  norm_num [f64MAXnat]

theorem update_solutions_state [DecidableEq σ] (St : StateImpl σ α) (A : Algorithm σ) :
    (update_solutions St A).state = A.state := by
  unfold update_solutions
  dsimp only
  split <;> rfl

theorem update_solutions_solution_count [DecidableEq σ] (St : StateImpl σ α) (A : Algorithm σ) :
    (update_solutions St A).solution_count = A.solution_count := by
  unfold update_solutions
  dsimp only
  split <;> rfl

theorem update_solutions_card_le [DecidableEq σ] (St : StateImpl σ α) (A : Algorithm σ) :
    (update_solutions St A).solutions.card ≤ A.solutions.card + 1 := by
  unfold update_solutions
  dsimp only
  split
  · exact Finset.card_insert_le _ _
  · exact Nat.le_succ _

theorem solveLoopWith_solution_count (St : StateImpl σ α) (rec : Algorithm σ → Algorithm σ)
    (hrec : ∀ B, (rec B).solution_count = B.solution_count) :
    ∀ alts A, (solveLoopWith St rec alts A).solution_count = A.solution_count := by
  intro alts
  induction alts with
  | nil => intro A; rfl
  | cons a rest ih =>
    intro A
    simp only [solveLoopWith]
    split
    · exact hrec _
    · rw [ih]
      exact hrec _

theorem solveFuel_solution_count [DecidableEq σ] (St : StateImpl σ α) :
    ∀ fuel A, (solveFuel St fuel A).solution_count = A.solution_count := by
  intro fuel
  induction fuel with
  | zero => intro A; rfl
  | succ n ih =>
    intro A
    simp only [solveFuel]
    split
    · exact update_solutions_solution_count St A
    · exact solveLoopWith_solution_count St _ ih _ _

theorem solveLoopWith_state (St : StateImpl σ α) (rec : Algorithm σ → Algorithm σ) (s₀ : σ)
    (Hroll : ∀ s, Reach St s₀ s → ∀ a ∈ St.alternatives s, St.backward (St.forward s a) a = s)
    (hrec : ∀ B, Reach St s₀ B.state → (rec B).state = B.state) :
    ∀ alts A, Reach St s₀ A.state → (∀ a ∈ alts, a ∈ St.alternatives A.state) →
      (solveLoopWith St rec alts A).state = A.state := by
  intro alts
  induction alts with
  | nil => intro A _ _; rfl
  | cons a rest ih =>
    intro A hA halts
    have ha : a ∈ St.alternatives A.state := halts a (List.mem_cons_self a rest)
    have hA1 : Reach St s₀ (St.forward A.state a) := Reach.step a hA ha
    have h2 : (rec { A with state := St.forward A.state a }).state = St.forward A.state a :=
      hrec _ hA1
    simp only [solveLoopWith]
    split
    · simpa [h2] using Hroll A.state hA a ha
    · have h3 : (St.backward (rec { A with state := St.forward A.state a }).state a) = A.state := by
        rw [h2]
        exact Hroll A.state hA a ha
      rw [ih]
      · exact h3
      · simpa [h3] using hA
      · intro a' ha'
        simpa [h3] using halts a' (List.mem_cons_of_mem a ha')

theorem solveFuel_state [DecidableEq σ] (St : StateImpl σ α) (s₀ : σ)
    (Hroll : ∀ s, Reach St s₀ s → ∀ a ∈ St.alternatives s, St.backward (St.forward s a) a = s) :
    ∀ fuel A, Reach St s₀ A.state → (solveFuel St fuel A).state = A.state := by
  intro fuel
  induction fuel with
  | zero => intro A _; rfl
  | succ n ih =>
    intro A hA
    simp only [solveFuel]
    split
    · exact update_solutions_state St A
    · exact solveLoopWith_state St _ s₀ Hroll (fun B hB => ih B hB) _ A hA
        (fun a ha => (List.mem_filter.mp ha).1)

theorem solveLoopWith_cap (St : StateImpl σ α) (rec : Algorithm σ → Algorithm σ)
    (hrec : ∀ B, B.success = false → B.solutions.card < max B.solution_count 1 →
      (rec B).solution_count = B.solution_count ∧
      ((rec B).success = false → (rec B).solutions.card < max B.solution_count 1) ∧
      (rec B).solutions.card ≤ max B.solution_count 1) :
    ∀ alts A, A.success = false → A.solutions.card < max A.solution_count 1 →
      (solveLoopWith St rec alts A).solution_count = A.solution_count ∧
      ((solveLoopWith St rec alts A).success = false →
        (solveLoopWith St rec alts A).solutions.card < max A.solution_count 1) ∧
      (solveLoopWith St rec alts A).solutions.card ≤ max A.solution_count 1 := by
  intro alts
  induction alts with
  | nil =>
    intro A h1 h2
    exact ⟨rfl, fun _ => h2, Nat.le_of_lt h2⟩
  | cons a rest ih =>
    intro A h1 h2
    obtain ⟨hc, hinv, hbnd⟩ := hrec { A with state := St.forward A.state a } h1 h2
    simp only [solveLoopWith]
    split
    next hsucc =>
      refine ⟨hc, ?_, hbnd⟩
      intro hfalse
      rw [hfalse] at hsucc
      exact absurd hsucc (by simp)
    next hsucc =>
      have hsucc' : (rec { A with state := St.forward A.state a }).success = false := by
        revert hsucc
        cases (rec { A with state := St.forward A.state a }).success <;> simp
      have hcard := hinv hsucc'
      have := ih { rec { A with state := St.forward A.state a } with
                    state := St.backward (rec { A with state := St.forward A.state a }).state a }
        hsucc' (by simpa [hc] using hcard)
      refine ⟨?_, ?_, ?_⟩
      · rw [this.1]; exact hc
      · intro hfalse
        have := this.2.1 hfalse
        simpa [hc] using this
      · simpa [hc] using this.2.2

theorem solveFuel_cap [DecidableEq σ] (St : StateImpl σ α) :
    ∀ fuel A, A.success = false → A.solutions.card < max A.solution_count 1 →
      (solveFuel St fuel A).solution_count = A.solution_count ∧
      ((solveFuel St fuel A).success = false →
        (solveFuel St fuel A).solutions.card < max A.solution_count 1) ∧
      (solveFuel St fuel A).solutions.card ≤ max A.solution_count 1 := by
  intro fuel
  induction fuel with
  | zero =>
    intro A h1 h2
    exact ⟨rfl, fun _ => h2, Nat.le_of_lt h2⟩
  | succ n ih =>
    intro A h1 h2
    simp only [solveFuel]
    split
    · dsimp only
      refine ⟨update_solutions_solution_count St A, ?_, ?_⟩
      · intro hfalse
        have hnot : ¬ ((update_solutions St A).solution_count ≤ (update_solutions St A).solutions.card) :=
          of_decide_eq_false hfalse
        have hlt : (update_solutions St A).solutions.card < A.solution_count := by
          rw [update_solutions_solution_count St A] at hnot
          omega
        exact Nat.lt_of_lt_of_le hlt (Nat.le_max_left _ _)
      · have := update_solutions_card_le St A
        omega
    · exact solveLoopWith_cap St _ ih _ A h1 h2

theorem solveLoopWith_congr (St : StateImpl σ α) (rec1 rec2 : Algorithm σ → Algorithm σ)
    (s₀ : σ) (bound : Nat)
    (Hsize : ∀ s, Reach St s₀ s → ∀ a ∈ St.alternatives s, St.size (St.forward s a) < St.size s)
    (Hroll : ∀ s, Reach St s₀ s → ∀ a ∈ St.alternatives s, St.backward (St.forward s a) a = s)
    (hrec1state : ∀ B, Reach St s₀ B.state → (rec1 B).state = B.state)
    (hagree : ∀ B, Reach St s₀ B.state → St.size B.state < bound → rec1 B = rec2 B) :
    ∀ alts A, Reach St s₀ A.state → (∀ a ∈ alts, a ∈ St.alternatives A.state) →
      St.size A.state ≤ bound →
      solveLoopWith St rec1 alts A = solveLoopWith St rec2 alts A := by
  intro alts
  induction alts with
  | nil => intro A _ _ _; rfl
  | cons a rest ih =>
    intro A hA halts hsz
    have ha : a ∈ St.alternatives A.state := halts a (List.mem_cons_self a rest)
    have hA1 : Reach St s₀ (St.forward A.state a) := Reach.step a hA ha
    have hsz1 : St.size (St.forward A.state a) < bound :=
      Nat.lt_of_lt_of_le (Hsize A.state hA a ha) hsz
    have heq : rec1 { A with state := St.forward A.state a } =
        rec2 { A with state := St.forward A.state a } := hagree _ hA1 hsz1
    have hstate : (St.backward (rec1 { A with state := St.forward A.state a }).state a) = A.state := by
      rw [hrec1state _ hA1]
      exact Hroll A.state hA a ha
    simp only [solveLoopWith]
    rw [← heq]
    split
    · rfl
    · apply ih
      · simpa [hstate] using hA
      · intro a' ha'
        simpa [hstate] using halts a' (List.mem_cons_of_mem a ha')
      · simpa [hstate] using hsz

theorem solveFuel_stable_aux [DecidableEq σ] (St : StateImpl σ α) (s₀ : σ)
    (Hsize : ∀ s, Reach St s₀ s → ∀ a ∈ St.alternatives s, St.size (St.forward s a) < St.size s)
    (Hroll : ∀ s, Reach St s₀ s → ∀ a ∈ St.alternatives s, St.backward (St.forward s a) a = s) :
    ∀ f A m, Reach St s₀ A.state → St.size A.state < f → St.size A.state < m →
      solveFuel St f A = solveFuel St m A := by
  intro f
  induction f with
  | zero => intro A m _ hf _; exact absurd hf (Nat.not_lt_zero _)
  | succ n ih =>
    intro A m hA hf hm
    obtain ⟨m', rfl⟩ : ∃ m', m = m' + 1 := ⟨m - 1, by omega⟩
    simp only [solveFuel]
    split
    · rfl
    · exact solveLoopWith_congr St (solveFuel St n) (solveFuel St m') s₀ (St.size A.state)
        Hsize Hroll (fun B hB => solveFuel_state St s₀ Hroll n B hB)
        (fun B hB hBsize => ih B m' hB (by omega) (by omega))
        _ A hA (fun a ha => (List.mem_filter.mp ha).1) (Nat.le_refl _)

theorem not_mem_dropLast_cons {x a : Ev} {l : List Ev} (hxa : x ≠ a) (h : x ∉ l.dropLast) :
    x ∉ (a :: l).dropLast := by
  cases l with
  | nil => simp
  | cons b l' =>
    rw [List.dropLast_cons₂]
    intro hx
    rcases List.mem_cons.mp hx with h1 | h1
    · exact hxa h1
    · exact h h1

theorem not_mem_dropLast_append {x : Ev} {t1 t2 : List Ev} (h1 : x ∉ t1) (h2 : x ∉ t2.dropLast) :
    x ∉ (t1 ++ t2).dropLast := by
  cases t2 with
  | nil =>
    rw [List.append_nil]
    intro hx
    exact h1 ((List.dropLast_sublist t1).subset hx)
  | cons b t2' =>
    rw [List.dropLast_append_cons]
    intro hx
    rcases List.mem_append.mp hx with h | h
    · exact h1 h
    · exact h2 h

theorem solveLoopWithE_trace (St : StateImpl σ α) (rec : Algorithm σ → Algorithm σ × List Ev)
    (hrec : ∀ B, B.success = false →
      (Ev.terminalEval true ∉ ((rec B).2).dropLast) ∧
      ((rec B).1.success = false → Ev.terminalEval true ∉ (rec B).2)) :
    ∀ alts A, A.success = false →
      (Ev.terminalEval true ∉ ((solveLoopWithE St rec alts A).2).dropLast) ∧
      ((solveLoopWithE St rec alts A).1.success = false →
        Ev.terminalEval true ∉ (solveLoopWithE St rec alts A).2) := by
  intro alts
  induction alts with
  | nil =>
    intro A _
    refine ⟨?_, fun _ => ?_⟩ <;> simp [solveLoopWithE]
  | cons a rest ih =>
    intro A h1
    obtain ⟨ht1, ht2⟩ := hrec { A with state := St.forward A.state a } h1
    simp only [solveLoopWithE]
    split
    next hsucc =>
      refine ⟨not_mem_dropLast_cons (by simp) ht1, ?_⟩
      intro hfalse
      rw [hfalse] at hsucc
      exact absurd hsucc (by simp)
    next hsucc =>
      have hsucc' : (rec { A with state := St.forward A.state a }).1.success = false := by
        revert hsucc
        cases (rec { A with state := St.forward A.state a }).1.success <;> simp
      have hfull : Ev.terminalEval true ∉ (rec { A with state := St.forward A.state a }).2 :=
        ht2 hsucc'
      obtain ⟨g1, g2⟩ := ih { (rec { A with state := St.forward A.state a }).1 with
          state := St.backward (rec { A with state := St.forward A.state a }).1.state a } hsucc'
      refine ⟨?_, ?_⟩
      · exact not_mem_dropLast_cons (by simp) (not_mem_dropLast_append hfull g1)
      · intro hfalse
        have hg2 := g2 hfalse
        intro hx
        rcases List.mem_cons.mp hx with h | h
        · exact absurd h (by simp)
        · rcases List.mem_append.mp h with h | h
          · exact hfull h
          · exact hg2 h

theorem solveFuelE_trace [DecidableEq σ] (St : StateImpl σ α) :
    ∀ fuel A, A.success = false →
      (Ev.terminalEval true ∉ ((solveFuelE St fuel A).2).dropLast) ∧
      ((solveFuelE St fuel A).1.success = false →
        Ev.terminalEval true ∉ (solveFuelE St fuel A).2) := by
  intro fuel
  induction fuel with
  | zero =>
    intro A _
    refine ⟨?_, fun _ => ?_⟩ <;> simp [solveFuelE]
  | succ n ih =>
    intro A h1
    simp only [solveFuelE]
    split
    · dsimp only
      refine ⟨by simp, ?_⟩
      intro hfalse
      rw [hfalse]
      simp
    · exact solveLoopWithE_trace St _ ih _ A h1

/-- C2: at a terminal state, `update_solutions` computes `v = state.value()`
and accepts iff the problem type is `All`, or it is `Min` and
`v < best_value`, or it is `Max` and `v > best_value`; on acceptance it
inserts a structural copy of the live state into the deduplicated solution
set and sets `best_value = v`, and on rejection it changes nothing. -/
theorem update_solutions_spec [DecidableEq σ] (St : StateImpl σ α) (A : Algorithm σ)
    (_hterm : St.is_final A.state = true) :
    update_solutions St A =
      if (St.problem_type A.state = .All)
         ∨ (St.problem_type A.state = .Min ∧ St.value A.state < A.best_value)
         ∨ (St.problem_type A.state = .Max ∧ St.value A.state > A.best_value) then
        { A with solutions := insert A.state A.solutions, best_value := St.value A.state }
      else A := by
  unfold update_solutions
  dsimp only
  cases h : St.problem_type A.state <;> simp [h]

/-- Witness for C2 at the concrete terminal `Max` state `StTerm`. -/
theorem update_solutions_spec_witness :
    StTerm.is_final AT.state = true ∧
    update_solutions StTerm AT =
      (if (StTerm.problem_type AT.state = .All)
          ∨ (StTerm.problem_type AT.state = .Min ∧ StTerm.value AT.state < AT.best_value)
          ∨ (StTerm.problem_type AT.state = .Max ∧ StTerm.value AT.state > AT.best_value) then
        { AT with solutions := insert AT.state AT.solutions, best_value := StTerm.value AT.state }
      else AT) :=
  ⟨rfl, update_solutions_spec StTerm AT rfl⟩

/-- C3: on a non-terminal state, `is_to_prune(a)` is true iff the problem
type is `Max` and `estimated_value(a) <= best_value`, or the problem type
is `Min` and `estimated_value(a) >= best_value`; under `All` it is false
for every alternative. -/
theorem is_to_prune_spec (St : StateImpl σ α) (A : Algorithm σ) (a : α)
    (_hnf : St.is_final A.state = false) :
    (is_to_prune St A a = true ↔
      (St.problem_type A.state = .Max ∧ St.estimated_value A.state a ≤ A.best_value) ∨
      (St.problem_type A.state = .Min ∧ St.estimated_value A.state a ≥ A.best_value)) ∧
    (St.problem_type A.state = .All → is_to_prune St A a = false) := by
  unfold is_to_prune
  cases h : St.problem_type A.state <;> simp [h]

/-- Witness for C3 at the concrete non-terminal state of `StChain`. -/
theorem is_to_prune_spec_witness :
    StChain.is_final AW.state = false ∧
    ((is_to_prune StChain AW 0 = true ↔
      (StChain.problem_type AW.state = .Max ∧ StChain.estimated_value AW.state 0 ≤ AW.best_value) ∨
      (StChain.problem_type AW.state = .Min ∧ StChain.estimated_value AW.state 0 ≥ AW.best_value)) ∧
    (StChain.problem_type AW.state = .All → is_to_prune StChain AW 0 = false)) :=
  ⟨rfl, is_to_prune_spec StChain AW 0 rfl⟩

/-- C7 (amended): `Algorithm::new` constructs the engine with
`solution_count = 100`, empty solution set, `success = false`, the given
state, and `best_value` seeded with the extreme FINITE doubles: `f64::MIN`
for `Max`, `f64::MAX` for `Min` (and `0.0` for `All`, unused) — not the
infinities. -/
theorem algorithm_new_spec (St : StateImpl σ α) (s : σ) :
    (Algorithm.new St s).solution_count = 100 ∧
    (Algorithm.new St s).solutions = ∅ ∧
    (Algorithm.new St s).success = false ∧
    (Algorithm.new St s).state = s ∧
    (Algorithm.new St s).best_value =
      (match St.problem_type s with
       | .Max => f64MIN
       | .Min => f64MAX
       | .All => F64.fin 0) :=
  ⟨rfl, rfl, rfl, rfl, rfl⟩

/-- C7 counterexample: on a `Max` problem the freshly constructed engine's
`best_value` is NOT negative infinity (it is the finite `f64::MIN`), so
the claim "initialized to negative infinity for Max" is false on the
code. -/
theorem algorithm_new_not_neg_infinity :
    StTerm.problem_type AT.state = PType.Max ∧
    (Algorithm.new StTerm 0).best_value ≠ (⊥ : F64) :=
  ⟨rfl, by decide⟩

/-- C8: under `Max`, visiting terminal values `5, 3, 7, 7, 2` in order
(leaves `1..5` of `St8`) accepts exactly the leaf valued `5` and the FIRST
leaf valued `7`: acceptance is a streaming running-best filter. -/
theorem streaming_best_acceptance :
    (solveFuel St8 2 (Algorithm.new St8 0)).solutions = ({1, 3} : Finset ℤ) ∧
    St8.value 1 = F64.fin 5 ∧ St8.value 2 = F64.fin 3 ∧ St8.value 3 = F64.fin 7 ∧
    St8.value 4 = F64.fin 7 ∧ St8.value 5 = F64.fin 2 ∧
    (solveFuel St8 2 (Algorithm.new St8 0)).best_value = F64.fin 7 := by
  refine ⟨?_, ?_, ?_, ?_, ?_, ?_, ?_⟩ <;> decide

/-- C1: if the State satisfies the rollback contract on every reachable
state, every `solve()` call (any fuel, i.e. also calls cut short by
`success`) returns with the live `state` field equal to its value at the
moment of the call, and `solution_count` also unchanged — only
`solutions`, `best_value` and `success` may differ (the `Algorithm` record
has no other fields). -/
theorem solve_preserves_state [DecidableEq σ] (St : StateImpl σ α) (A : Algorithm σ)
    (Hroll : ∀ s, Reach St A.state s → ∀ a ∈ St.alternatives s,
      St.backward (St.forward s a) a = s)
    (fuel : Nat) :
    (solveFuel St fuel A).state = A.state ∧
    (solveFuel St fuel A).solution_count = A.solution_count :=
  ⟨solveFuel_state St A.state Hroll fuel A (Reach.refl _), solveFuel_solution_count St fuel A⟩

/-- Witness for C1 on the concrete chain problem `StChain` (whose cyclic
`forward`/`backward` satisfy exact rollback on every state). -/
theorem solve_preserves_state_witness :
    (solveFuel StChain 5 AW).state = AW.state ∧
    (solveFuel StChain 5 AW).solution_count = AW.solution_count :=
  solve_preserves_state StChain AW
    (fun s _ a ha =>
      (by decide : ∀ s : Fin 4, ∀ a ∈ StChain.alternatives s,
          StChain.backward (StChain.forward s a) a = s) s a ha) 5

/-- C4 (amended): after `solve()` on a freshly constructed engine with cap
`k`, the solution set holds at most `max k 1` entries: the cap `k` is
respected for `k ≥ 1`, but with `k = 0` the first accepted terminal state
is still inserted before `success` is ever consulted, so one entry can be
present. -/
theorem solve_cap_bound [DecidableEq σ] (St : StateImpl σ α) (s : σ) (k fuel : Nat) :
    ((solveFuel St fuel ((Algorithm.new St s).set_solution_count k)).all_solutions).card
      ≤ max k 1 := by
  have h0 : ((Algorithm.new St s).set_solution_count k).success = false := rfl
  have hc0 : ((Algorithm.new St s).set_solution_count k).solutions.card = 0 := rfl
  have hk : ((Algorithm.new St s).set_solution_count k).solution_count = k := rfl
  have h1 : ((Algorithm.new St s).set_solution_count k).solutions.card <
      max ((Algorithm.new St s).set_solution_count k).solution_count 1 := by
    rw [hc0, hk]
    omega
  have h := (solveFuel_cap St fuel _ h0 h1).2.2
  rw [hk] at h
  exact h

/-- C4 counterexample: with `solution_count = 0` the claim "at most `k`
entries for every natural `k` including `0`" fails — the single terminal
state of `StTerm` is inserted before the cap is consulted, leaving one
entry. -/
theorem solve_cap_zero_cex :
    ¬ ((solveFuel StTerm 1 ((Algorithm.new StTerm 0).set_solution_count 0)).all_solutions.card
        ≤ 0) := by
  decide

/-- C6 (amended): with the default `estimated_value`, `is_to_prune` is
false for every alternative PROVIDED `best_value` is strictly below
`f64::MAX` under `Max` (respectively strictly above `f64::MIN` under
`Min`); under `All` it is unconditionally false.  (If `best_value` attains
the extreme — possible only when a terminal value does — the non-strict
comparison prunes; see the counterexample.) -/
theorem default_estimate_no_prune (St : StateImpl σ α) (A : Algorithm σ) (a : α)
    (hdef : ∀ s b, St.estimated_value s b = defaultEstimatedValue St s b)
    (hMax : St.problem_type A.state = .Max → A.best_value < f64MAX)
    (hMin : St.problem_type A.state = .Min → f64MIN < A.best_value) :
    is_to_prune St A a = false := by
  unfold is_to_prune
  cases h : St.problem_type A.state
  · rfl
  · rw [hdef]
    unfold defaultEstimatedValue
    rw [h]
    exact decide_eq_false (not_le.mpr (hMax h))
  · rw [hdef]
    unfold defaultEstimatedValue
    rw [h]
    exact decide_eq_false (not_le.mpr (hMin h))

/-- Witness for C6: on the fresh `Max` engine of `St8` (whose estimator is
the default `f64::MAX`), nothing is pruned. -/
theorem default_estimate_no_prune_witness :
    is_to_prune St8 (Algorithm.new St8 0) 1 = false :=
  default_estimate_no_prune St8 (Algorithm.new St8 0) 1
    (fun _ _ => rfl)
    (fun _ => by decide)
    (fun h => absurd h (by decide))

/-- C6 counterexample: after a real run of `StC6` (default estimator,
`Max`) in which a terminal state of value `f64::MAX` was accepted,
`best_value = f64::MAX` and `is_to_prune` returns TRUE on the root's
remaining alternative, so the claim "false for every value `best_value`
can hold" is false on the code. -/
theorem default_estimate_prunes_at_extreme :
    StC6.estimated_value (solveFuel StC6 2 (Algorithm.new StC6 0)).state 1 =
      defaultEstimatedValue StC6 (solveFuel StC6 2 (Algorithm.new StC6 0)).state 1 ∧
    (solveFuel StC6 2 (Algorithm.new StC6 0)).best_value = f64MAX ∧
    is_to_prune StC6 (solveFuel StC6 2 (Algorithm.new StC6 0)) 1 = true := by
  refine ⟨rfl, ?_, ?_⟩ <;> decide

/-- C9: starting a `solve()` call with `success = false`, no forward call
and no terminal evaluation happens after the terminal evaluation that set
`success` to true: in the chronological event trace, a `terminalEval true`
event can only be the very last event (it never occurs in `dropLast`). -/
theorem no_events_after_success [DecidableEq σ] (St : StateImpl σ α) (fuel : Nat)
    (A : Algorithm σ) (h : A.success = false) :
    Ev.terminalEval true ∉ ((solveFuelE St fuel A).2).dropLast :=
  (solveFuelE_trace St fuel A h).1

/-- Witness for C9: with `solution_count = 1` on the two-leaf problem
`StW9` the whole trace is `[forwardStep, terminalEval true]` — the engine
stops after the first accepted solution, leaving the sibling leaf
unexplored. -/
theorem no_events_after_success_witness :
    A9.success = false ∧
    Ev.terminalEval true ∉ ((solveFuelE StW9 2 A9).2).dropLast ∧
    (solveFuelE StW9 2 A9).2 = [Ev.forwardStep, Ev.terminalEval true] :=
  ⟨rfl, no_events_after_success StW9 2 A9 rfl, by decide⟩

theorem reach_St05 : ∀ s, Reach St05 10 s → s = 10 ∨ s = 0 := by
  intro s h
  induction h with
  | refl => left; rfl
  | step a hr ha ih =>
    rcases ih with h10 | h0
    · subst h10
      right
      simp [St05]
    · subst h0
      simp [St05] at ha

/-- C5 (amended): if, on every reachable state, `forward` strictly
decreases `size` AND `backward` exactly undoes `forward` (the rollback
contract — size restoration alone is NOT enough, see the counterexample),
then `solve()` terminates with recursion depth at most the initial
`size()`: every fuel beyond `size + 1` produces the same result as fuel
`size + 1`, i.e. the recursion never needs more than `size` nested
forward steps. -/
theorem solve_fuel_stable [DecidableEq σ] (St : StateImpl σ α) (A : Algorithm σ)
    (Hsize : ∀ s, Reach St A.state s → ∀ a ∈ St.alternatives s,
      St.size (St.forward s a) < St.size s)
    (Hroll : ∀ s, Reach St A.state s → ∀ a ∈ St.alternatives s,
      St.backward (St.forward s a) a = s)
    (fuel : Nat) (hfuel : St.size A.state < fuel) :
    solveFuel St fuel A = solveFuel St (St.size A.state + 1) A :=
  solveFuel_stable_aux St A.state Hsize Hroll fuel A (St.size A.state + 1) (Reach.refl _)
    hfuel (Nat.lt_succ_self _)

/-- Witness for C5 on the well-behaved chain `StChain` (initial size 2). -/
theorem solve_fuel_stable_witness :
    StChain.size AW.state < 10 ∧
    solveFuel StChain 10 AW = solveFuel StChain (StChain.size AW.state + 1) AW :=
  ⟨by decide,
   solve_fuel_stable StChain AW
     (fun s _ a ha => (by decide : ∀ s : Fin 4, ∀ a ∈ StChain.alternatives s,
        StChain.size (StChain.forward s a) < StChain.size s) s a ha)
     (fun s _ a ha => (by decide : ∀ s : Fin 4, ∀ a ∈ StChain.alternatives s,
        StChain.backward (StChain.forward s a) a = s) s a ha)
     10 (by decide)⟩

/-- C5 counterexample: the size conditions of the claim (strict decrease
along `forward`, exact size restoration along `backward`) hold on every
reachable state of `St05`, yet `solve()` does not terminate within the
claimed depth: fuel `3` and fuel `size + 1 = 2` give different results,
because after the first alternative `backward` restores the SIZE but not
the state, and the search then walks an infinite chain. -/
theorem solve_termination_needs_rollback :
    ¬ (∀ (St : StateImpl ℤ ℤ) (A : Algorithm ℤ),
        (∀ s, Reach St A.state s → ∀ a ∈ St.alternatives s,
          St.size (St.forward s a) < St.size s) →
        (∀ s, Reach St A.state s → ∀ a ∈ St.alternatives s,
          St.size (St.backward (St.forward s a) a) = St.size s) →
        ∀ fuel, St.size A.state < fuel →
          solveFuel St fuel A = solveFuel St (St.size A.state + 1) A) := by
  intro h
  have hsize : ∀ s, Reach St05 A05.state s → ∀ a ∈ St05.alternatives s,
      St05.size (St05.forward s a) < St05.size s := by
    intro s hr a ha
    rcases reach_St05 s hr with h10 | h0
    · subst h10
      revert a ha
      decide
    · subst h0
      simp [St05] at ha
  have hback : ∀ s, Reach St05 A05.state s → ∀ a ∈ St05.alternatives s,
      St05.size (St05.backward (St05.forward s a) a) = St05.size s := by
    intro s hr a ha
    rcases reach_St05 s hr with h10 | h0
    · subst h10
      revert a ha
      decide
    · subst h0
      simp [St05] at ha
  have heq := h St05 A05 hsize hback 3 (by decide)
  have hstate := congrArg Algorithm.state heq
  exact absurd hstate (by decide)

/-- C10 (code bug evaluation): on a problem that is itself a base case,
the unmemoized solver produces the converted base-case solution, but the
memoized solver returns `none` — `DacMemAlgorithm::solve` returns base
cases without inserting them into the memo table, and
`DacMemAlgorithm::get_solution` only consults the table. -/
theorem dac_mem_base_case_divergence :
    DacAlgorithm.get_solution PrB 1 () = some 0 ∧
    DacMemAlgorithm.get_solution PrB 1 () = none := by
  constructor <;> rfl

theorem lookupMem_cons [DecidableEq P] (pk : P) (e : E) (m : List (P × E)) (q : P) :
    lookupMem ((pk, e) :: m) q = if pk = q then some e else lookupMem m q := by
  unfold lookupMem
  by_cases h : pk = q
  · rw [List.find?_cons_of_pos _ (by simpa using h), if_pos h]
  · rw [List.find?_cons_of_neg _ (by simpa using h), if_neg h]

theorem dacSolveAllWith_congr (step1 step2 : P → Option E) :
    ∀ ps, (∀ q ∈ ps, step1 q = step2 q) →
      dacSolveAllWith step1 ps = dacSolveAllWith step2 ps := by
  intro ps
  induction ps with
  | nil => intro _; rfl
  | cons q ps' ih =>
    intro h
    simp only [dacSolveAllWith]
    rw [h q (List.mem_cons_self q ps'), ih (fun r hr => h r (List.mem_cons_of_mem q hr))]

theorem dacSolve_stable (Pr : DacProblem P S E)
    (Hdec : ∀ p, Pr.is_base_case p = false → ∀ q ∈ subproblemList Pr p,
      Pr.size q < Pr.size p) :
    ∀ f p m, Pr.size p < f → Pr.size p < m → dacSolve Pr f p = dacSolve Pr m p := by
  intro f
  induction f with
  | zero => intro p m hf _; exact absurd hf (Nat.not_lt_zero _)
  | succ n ih =>
    intro p m hf hm
    obtain ⟨m', rfl⟩ : ∃ m', m = m' + 1 := ⟨m - 1, by omega⟩
    simp only [dacSolve]
    by_cases hb : Pr.is_base_case p = true
    · simp [hb]
    · have hb' : Pr.is_base_case p = false := by
        revert hb
        cases Pr.is_base_case p <;> simp
      rw [dacSolveAllWith_congr (dacSolve Pr n) (dacSolve Pr m') _
        (fun q hq => ih q m' (by have := Hdec p hb' q hq; omega)
          (by have := Hdec p hb' q hq; omega))]

theorem dacMemSolveAllWith_sound [DecidableEq P] (Pr : DacProblem P S E) (f : Nat)
    (step : P → List (P × E) → Option (E × List (P × E)))
    (hstep : ∀ p m, Pr.size p < f → GoodMem Pr m →
      ∃ e m', step p m = some (e, m') ∧ dacSolve Pr (Pr.size p + 1) p = some e ∧
        GoodMem Pr m') :
    ∀ ps m, (∀ q ∈ ps, Pr.size q < f) → GoodMem Pr m →
      ∃ es m', dacMemSolveAllWith step ps m = some (es, m') ∧
        dacSolveAllWith (fun q => dacSolve Pr (Pr.size q + 1) q) ps = some es ∧
        GoodMem Pr m' := by
  intro ps
  induction ps with
  | nil => intro m _ hg; exact ⟨[], m, rfl, rfl, hg⟩
  | cons q ps' ih =>
    intro m hps hg
    obtain ⟨e, m', h1, h2, hg'⟩ := hstep q m (hps q (List.mem_cons_self _ _)) hg
    obtain ⟨es, m'', h3, h4, hg''⟩ := ih m' (fun r hr => hps r (List.mem_cons_of_mem _ hr)) hg'
    refine ⟨e :: es, m'', ?_, ?_, hg''⟩
    · simp [dacMemSolveAllWith, h1, h3]
    · simp [dacSolveAllWith, h2, h4]

theorem dacMemSolve_sound [DecidableEq P] (Pr : DacProblem P S E)
    (Hdec : ∀ p, Pr.is_base_case p = false → ∀ q ∈ subproblemList Pr p,
      Pr.size q < Pr.size p) :
    ∀ f p m, Pr.size p < f → GoodMem Pr m →
      ∃ e m', dacMemSolve Pr f p m = some (e, m') ∧
        dacSolve Pr (Pr.size p + 1) p = some e ∧ GoodMem Pr m' ∧
        (Pr.is_base_case p = false → lookupMem m' p = some e) := by
  intro f
  induction f with
  | zero => intro p m hf _; exact absurd hf (Nat.not_lt_zero _)
  | succ n ih =>
    intro p m hf hg
    by_cases hb : Pr.is_base_case p = true
    · refine ⟨Pr.base_case_solution p, m, ?_, ?_, hg, ?_⟩
      · simp [dacMemSolve, hb]
      · simp [dacSolve, hb]
      · intro hfalse
        rw [hfalse] at hb
        exact Bool.noConfusion hb
    · have hb' : Pr.is_base_case p = false := by
        revert hb
        cases Pr.is_base_case p <;> simp
      cases hl : lookupMem m p with
      | some e =>
        refine ⟨e, m, ?_, hg p e hl, hg, fun _ => hl⟩
        simp [dacMemSolve, hb', hl]
      | none =>
        have hsub : ∀ q ∈ subproblemList Pr p, Pr.size q < n := by
          intro q hq
          have := Hdec p hb' q hq
          omega
        obtain ⟨es, m', hmem, hpure, hg'⟩ :=
          dacMemSolveAllWith_sound Pr n (dacMemSolve Pr n)
            (fun p' m' hp' hg' =>
              (ih p' m' hp' hg').elim (fun e h =>
                h.elim (fun mm hh => ⟨e, mm, hh.1, hh.2.1, hh.2.2.1⟩)))
            (subproblemList Pr p) m hsub hg
        have hsolve : dacSolve Pr (Pr.size p + 1) p = some (Pr.combine p es) := by
          have hall : dacSolveAllWith (dacSolve Pr (Pr.size p)) (subproblemList Pr p) = some es := by
            rw [dacSolveAllWith_congr (dacSolve Pr (Pr.size p))
              (fun q => dacSolve Pr (Pr.size q + 1) q) _
              (fun q hq => dacSolve_stable Pr Hdec (Pr.size p) q (Pr.size q + 1)
                (Hdec p hb' q hq) (Nat.lt_succ_self _))]
            exact hpure
          simp [dacSolve, hb', hall]
        refine ⟨Pr.combine p es, (p, Pr.combine p es) :: m', ?_, hsolve, ?_, ?_⟩
        · simp [dacMemSolve, hb', hl, hmem]
        · intro q e' hlq
          rw [lookupMem_cons] at hlq
          by_cases hpq : p = q
          · rw [if_pos hpq] at hlq
            cases hlq
            rw [← hpq]
            exact hsolve
          · rw [if_neg hpq] at hlq
            exact hg' q e' hlq
        · intro _
          rw [lookupMem_cons, if_pos rfl]

/-- Memoization is transparent away from the defect: for every problem
with a size-decreasing decomposition whose top-level problem is NOT a base
case, the memoized and unmemoized solvers return the same final solution
(the base-case defect of `dac_mem_base_case_divergence` is the only
disagreement). -/
theorem dac_mem_agreement_off_base [DecidableEq P] (Pr : DacProblem P S E)
    (Hdec : ∀ p, Pr.is_base_case p = false → ∀ q ∈ subproblemList Pr p,
      Pr.size q < Pr.size p)
    (p : P) (hnb : Pr.is_base_case p = false) (fuel : Nat) (hfuel : Pr.size p < fuel) :
    DacMemAlgorithm.get_solution Pr fuel p = DacAlgorithm.get_solution Pr fuel p := by
  have hg0 : GoodMem Pr ([] : List (P × E)) := by
    intro q e h
    simp [lookupMem] at h
  obtain ⟨e, m', h1, h2, _, h4⟩ := dacMemSolve_sound Pr Hdec fuel p [] hfuel hg0
  have h5 : dacSolve Pr fuel p = some e := by
    rw [dacSolve_stable Pr Hdec fuel p (Pr.size p + 1) hfuel (Nat.lt_succ_self _)]
    exact h2
  unfold DacMemAlgorithm.get_solution DacAlgorithm.get_solution
  rw [h1, h5]
  dsimp only
  rw [h4 hnb]
